import Mathlib

/-!
Verification of the haplotype conflict resolver of `projects/tgbs.py`.

The development shallowly embeds the parts of `resolve` and of class
`HaplotypeResolver` that the verified properties speak about:

* the marker-selection filter over the genotype matrix
  (`pyRound`, `MatrixRow`, `rowMarker`, `selectMarkers`);
* the per-sample haplotype extraction from pileup observations
  (`PileupColumn`, `collectObs`, `readHap`, `emitHap`, `sampleHaplotypes`,
  `regionHaplotypeSets`);
* the population counting and pairwise co-occurrence computation of
  `HaplotypeResolver.__init__` and `HaplotypeResolver.solve`
  (`popCounter`, `keysList`, `cooccCount`, `pairsOf`, `solveTable`).

Machine floats of the Python code are modelled by exact rationals, Python
strings by `String`, Python sets by duplicate-free lists (`List.dedup`),
and the exceptions a pileup accessor may raise by `Except Unit`.
-/

namespace Tgbs

/-- Python 2 `round`: round half away from zero.  Models the expression
`nmissing = int(round(opts.missing * ngenotypes))` of `resolve`. -/
def pyRound (q : ℚ) : ℤ :=
  if q < 0 then -⌊-q + 1 / 2⌋ else ⌊q + 1 / 2⌋

/-- One parsed data row of the genotype matrix: the fields
`seqid, pos, ref, alt = atoms[:4]` and `genotypes = atoms[4:]`, with the
position already converted by `int(pos)`. -/
structure MatrixRow where
  seqid : String
  pos : ℤ
  ref : String
  alt : String
  genotypes : List String
  deriving DecidableEq, Repr

/-- A marker that survived the filter.  The Python code appends the tuple
`(seqid, pos, ref, alt, c, hetratio)` to `data`; the genotype `Counter c`
is carried along but never used by any downstream computation modelled
here, so it is not recorded. -/
structure Marker where
  seqid : String
  pos : ℤ
  ref : String
  alt : String
  hetratio : ℚ
  deriving DecidableEq, Repr

/-- The body of the marker-selection loop of `resolve` for one data row:
count the missing code `c0 = c.get('0', 0)` and the heterozygous code
`c3 = c.get('3', 0)`, skip the row when `c0 >= nmissing`, compute
`hetratio = c3 * 1. / (ngenotypes - c0)`, skip the row when
`hetratio <= opts.het`, and otherwise materialize the marker. -/
def rowMarker (missing het : ℚ) (ngenotypes : ℕ) (r : MatrixRow) : Option Marker :=
  if (r.genotypes.count "0" : ℤ) ≥ pyRound (missing * ngenotypes) then none
  else if (r.genotypes.count "3" : ℚ) / ((ngenotypes : ℚ) - (r.genotypes.count "0" : ℚ)) ≤ het
    then none
  else some ⟨r.seqid, r.pos, r.ref, r.alt,
    (r.genotypes.count "3" : ℚ) / ((ngenotypes : ℚ) - (r.genotypes.count "0" : ℚ))⟩

lemma pyRound_le_of_le (q : ℚ) (n : ℕ) (h : q ≤ n) : pyRound q ≤ (n : ℤ) := by
  unfold pyRound
  split
  · have h0 : (0 : ℤ) ≤ ⌊-q + 1 / 2⌋ := Int.floor_nonneg.mpr (by linarith)
    have hn : (0 : ℤ) ≤ (n : ℤ) := Int.ofNat_nonneg n
    omega
  · have hlt : q + 1 / 2 < (n : ℚ) + 1 := by linarith
    have : ⌊q + 1 / 2⌋ < (n : ℤ) + 1 := Int.floor_lt.mpr (by push_cast; linarith)
    omega

/-- C1: a well-formed data row with `N` genotype columns is materialized as
a marker iff its missing count is strictly below `round(missing * N)` and
its heterozygosity ratio `c3 / (N - c0)` is strictly above the
heterozygosity threshold; rows exactly at either threshold are rejected. -/
theorem marker_selected_iff (missing het : ℚ) (N : ℕ) (r : MatrixRow)
    (_hwf : r.genotypes.length = N) :
    (rowMarker missing het N r).isSome = true ↔
      ((r.genotypes.count "0" : ℤ) < pyRound (missing * N) ∧
       het < (r.genotypes.count "3" : ℚ) / ((N : ℚ) - (r.genotypes.count "0" : ℚ))) := by
  unfold rowMarker
  split
  · rename_i h1
    simp only [Option.isSome_none, Bool.false_eq_true, false_iff, not_and]
    intro h2
    exact absurd h2 (not_lt.mpr h1)
  · rename_i h1
    split
    · rename_i h2
      simp only [Option.isSome_none, Bool.false_eq_true, false_iff, not_and]
      intro _
      exact not_lt.mpr h2
    · rename_i h2
      simp only [Option.isSome_some, true_iff]
      exact ⟨not_le.mp h1, not_le.mp h2⟩

theorem marker_selected_iff_witness :
    (rowMarker (1 / 2) (1 / 2) 4 (MatrixRow.mk "c" 100 "A" "G" ["1", "3", "3", "0"])).isSome = true ↔
      (((MatrixRow.mk "c" 100 "A" "G" ["1", "3", "3", "0"]).genotypes.count "0" : ℤ) <
          pyRound ((1 / 2) * (4 : ℕ)) ∧
       (1 / 2 : ℚ) < ((MatrixRow.mk "c" 100 "A" "G" ["1", "3", "3", "0"]).genotypes.count "3" : ℚ) /
          (((4 : ℕ) : ℚ) - ((MatrixRow.mk "c" 100 "A" "G" ["1", "3", "3", "0"]).genotypes.count "0" : ℚ))) :=
  marker_selected_iff (1 / 2) (1 / 2) 4 (MatrixRow.mk "c" 100 "A" "G" ["1", "3", "3", "0"]) rfl

/-- C10: when the missingness fraction is at most 1, any row that passes the
missingness test (`c0 < round(missing * N)`) has `N - c0` strictly positive,
so the division computing the heterozygosity ratio never divides by zero. -/
theorem het_denominator_pos (missing : ℚ) (N : ℕ) (r : MatrixRow)
    (hm : missing ≤ 1)
    (hpass : (r.genotypes.count "0" : ℤ) < pyRound (missing * N)) :
    (0 : ℚ) < (N : ℚ) - (r.genotypes.count "0" : ℚ) := by
  have hqn : missing * (N : ℚ) ≤ (N : ℚ) :=
    mul_le_of_le_one_left (by positivity) hm
  have hle : pyRound (missing * N) ≤ (N : ℤ) := pyRound_le_of_le _ _ hqn
  have hlt : ((r.genotypes.count "0" : ℕ) : ℤ) < (N : ℤ) := lt_of_lt_of_le hpass hle
  have : ((r.genotypes.count "0" : ℕ) : ℚ) < (N : ℚ) := by exact_mod_cast hlt
  linarith

theorem het_denominator_pos_witness :
    (0 : ℚ) < ((4 : ℕ) : ℚ) - ((MatrixRow.mk "c" 100 "A" "G" ["1", "3", "3", "0"]).genotypes.count "0" : ℚ) :=
  het_denominator_pos (1 / 2) 4 (MatrixRow.mk "c" 100 "A" "G" ["1", "3", "3", "0"])
    (by norm_num) (by norm_num [pyRound, List.count_cons, List.count_nil]; decide)

/-- The population counter built by `HaplotypeResolver.__init__`: starting
from an empty `Counter`, every per-sample haplotype set contributes one
count per distinct haplotype string it contains
(`self.counter.update(Counter(haplotypes))` where `haplotypes` is a set). -/
def popCounter : List (List String) → String → ℕ
  | [], _ => 0
  | s :: rest, h => (if h ∈ s then 1 else 0) + popCounter rest h

/-- The distinct haplotype strings present in the population counter, i.e.
the keys enumerated by `self.counter.items()` in `HaplotypeResolver.solve`.
The iteration order of the underlying Python dict is arbitrary; it is
modelled by `List.dedup` of the concatenated sample sets.  No verified
property depends on this order beyond determinism. -/
def keysList (hs : List (List String)) : List String :=
  hs.flatten.dedup

/-- The co-occurrence count of `HaplotypeResolver.solve`:
`abi = sum(1 for haplotypes in self.haplotype_set if a in haplotypes and b in haplotypes)`. -/
def cooccCount (hs : List (List String)) (a b : String) : ℕ :=
  hs.countP (fun s => decide (a ∈ s ∧ b ∈ s))

/-- `itertools.combinations(l, 2)` in list order: every pair `(l_i, l_j)`
with `i < j`, each exactly once. -/
def pairsOf {α : Type} : List α → List (α × α)
  | [] => []
  | x :: xs => xs.map (fun y => (x, y)) ++ pairsOf xs

/-- The co-occurrence table printed by `HaplotypeResolver.solve`: one
`(a, b, abi)` record per combination of two distinct counter keys. -/
def solveTable (hs : List (List String)) : List (String × String × ℕ) :=
  (pairsOf (keysList hs)).map (fun p => (p.1, p.2, cooccCount hs p.1 p.2))

lemma popCounter_eq_countP (hs : List (List String)) (h : String) :
    popCounter hs h = hs.countP (fun s => decide (h ∈ s)) := by
  induction hs with
  | nil => rfl
  | cons s rest ih =>
      simp only [popCounter, List.countP_cons, ih, decide_eq_true_eq]
      omega

lemma mem_keysList {hs : List (List String)} {a : String} :
    a ∈ keysList hs ↔ ∃ s ∈ hs, a ∈ s := by
  simp [keysList, List.mem_dedup, List.mem_flatten]

lemma popCounter_pos_iff {hs : List (List String)} {a : String} :
    0 < popCounter hs a ↔ a ∈ keysList hs := by
  rw [popCounter_eq_countP, List.countP_pos_iff, mem_keysList]
  simp

lemma pairsOf_mem {α : Type} {t : α × α} :
    ∀ {l : List α}, t ∈ pairsOf l → t.1 ∈ l ∧ t.2 ∈ l := by
  intro l
  induction l with
  | nil => intro h; cases h
  | cons x xs ih =>
      intro h
      rcases List.mem_append.mp h with h1 | h2
      · rcases List.mem_map.mp h1 with ⟨y, hy, rfl⟩
        exact ⟨List.mem_cons_self _ _, List.mem_cons_of_mem _ hy⟩
      · rcases ih h2 with ⟨h3, h4⟩
        exact ⟨List.mem_cons_of_mem _ h3, List.mem_cons_of_mem _ h4⟩

lemma countP_eq_one_of_nodup {α : Type} [DecidableEq α] {xs : List α} (hnd : xs.Nodup)
    {B : α} (hB : B ∈ xs) : xs.countP (fun y => decide (y = B)) = 1 := by
  induction xs with
  | nil => cases hB
  | cons x xs ih =>
      rcases List.nodup_cons.mp hnd with ⟨hx, hnd'⟩
      rw [List.countP_cons]
      by_cases hxB : x = B
      · subst hxB
        have h0 : xs.countP (fun y => decide (y = x)) = 0 := by
          rw [List.countP_eq_zero]
          intro a ha
          simp only [decide_eq_true_eq]
          intro h
          exact hx (h ▸ ha)
        simp [h0]
      · have hB' : B ∈ xs := by
          rcases List.mem_cons.mp hB with h | h
          · exact absurd h.symm hxB
          · exact h
        simp [ih hnd' hB', hxB]

lemma countP_pairsOf {α : Type} [DecidableEq α] {l : List α} (hnd : l.Nodup) {A B : α}
    (hA : A ∈ l) (hB : B ∈ l) (hne : A ≠ B) :
    (pairsOf l).countP (fun t => decide ((t.1 = A ∧ t.2 = B) ∨ (t.1 = B ∧ t.2 = A))) = 1 := by
  induction l with
  | nil => cases hA
  | cons x xs ih =>
      rcases List.nodup_cons.mp hnd with ⟨hx, hnd'⟩
      rw [pairsOf, List.countP_append, List.countP_map]
      by_cases hxA : x = A
      · have hB' : B ∈ xs := by
          rcases List.mem_cons.mp hB with h | h
          · exact absurd (h.trans hxA).symm hne
          · exact h
        have hmap : xs.countP
            ((fun t : α × α => decide ((t.1 = A ∧ t.2 = B) ∨ (t.1 = B ∧ t.2 = A))) ∘
              fun y => (x, y)) = 1 := by
          rw [List.countP_congr (q := fun y => decide (y = B))]
          · exact countP_eq_one_of_nodup hnd' hB'
          · intro y _
            simp only [Function.comp_apply, decide_eq_true_eq]
            constructor
            · rintro (⟨_, h⟩ | ⟨h, _⟩)
              · exact h
              · exact absurd (hxA.symm.trans h) hne
            · intro h
              exact Or.inl ⟨hxA, h⟩
        have hrest : (pairsOf xs).countP
            (fun t : α × α => decide ((t.1 = A ∧ t.2 = B) ∨ (t.1 = B ∧ t.2 = A))) = 0 := by
          rw [List.countP_eq_zero]
          intro t ht
          rcases pairsOf_mem ht with ⟨h1, h2⟩
          simp only [decide_eq_true_eq]
          rintro (⟨h3, _⟩ | ⟨_, h4⟩)
          · exact hx (by rw [hxA]; exact h3 ▸ h1)
          · exact hx (by rw [hxA]; exact h4 ▸ h2)
        rw [hmap, hrest]
      · by_cases hxB : x = B
        · have hA' : A ∈ xs := by
            rcases List.mem_cons.mp hA with h | h
            · exact absurd h.symm hxA
            · exact h
          have hmap : xs.countP
              ((fun t : α × α => decide ((t.1 = A ∧ t.2 = B) ∨ (t.1 = B ∧ t.2 = A))) ∘
                fun y => (x, y)) = 1 := by
            rw [List.countP_congr (q := fun y => decide (y = A))]
            · exact countP_eq_one_of_nodup hnd' hA'
            · intro y _
              simp only [Function.comp_apply, decide_eq_true_eq]
              constructor
              · rintro (⟨h, _⟩ | ⟨_, h⟩)
                · exact absurd h hxA
                · exact h
              · intro h
                exact Or.inr ⟨hxB, h⟩
          have hrest : (pairsOf xs).countP
              (fun t : α × α => decide ((t.1 = A ∧ t.2 = B) ∨ (t.1 = B ∧ t.2 = A))) = 0 := by
            rw [List.countP_eq_zero]
            intro t ht
            rcases pairsOf_mem ht with ⟨h1, h2⟩
            simp only [decide_eq_true_eq]
            rintro (⟨_, h4⟩ | ⟨h3, _⟩)
            · exact hx (by rw [hxB]; exact h4 ▸ h2)
            · exact hx (by rw [hxB]; exact h3 ▸ h1)
          rw [hmap, hrest]
        · have hA' : A ∈ xs := by
            rcases List.mem_cons.mp hA with h | h
            · exact absurd h.symm hxA
            · exact h
          have hB' : B ∈ xs := by
            rcases List.mem_cons.mp hB with h | h
            · exact absurd h.symm hxB
            · exact h
          have hmap : xs.countP
              ((fun t : α × α => decide ((t.1 = A ∧ t.2 = B) ∨ (t.1 = B ∧ t.2 = A))) ∘
                fun y => (x, y)) = 0 := by
            rw [List.countP_eq_zero]
            intro y _
            simp only [Function.comp_apply, decide_eq_true_eq]
            rintro (⟨h, _⟩ | ⟨h, _⟩)
            · exact hxA h
            · exact hxB h
          rw [hmap, ih hnd' hA' hB']

/-- C3: the population count `HaplotypeResolver.__init__` assigns to a
haplotype string equals the number of samples whose set contains the
string; in particular a sample whose ten reads all show `"AGT"` (so whose
deduplicated haplotype set is `{"AGT"}`) contributes exactly one count. -/
theorem popCounter_counts_samples :
    (∀ (hs : List (List String)) (h : String),
        popCounter hs h = hs.countP (fun s => decide (h ∈ s))) ∧
      popCounter [(List.replicate 10 "AGT").dedup] "AGT" = 1 :=
  ⟨popCounter_eq_countP, by decide⟩

/-- C4: `HaplotypeResolver.solve` emits exactly one record per unordered
pair of distinct haplotype strings present in the population counter, and
that record carries the number of samples containing both strings. -/
theorem solve_unordered_pairs (hs : List (List String)) (A B : String)
    (hA : 0 < popCounter hs A) (hB : 0 < popCounter hs B) (hne : A ≠ B) :
    (solveTable hs).countP
        (fun t => decide ((t.1 = A ∧ t.2.1 = B) ∨ (t.1 = B ∧ t.2.1 = A))) = 1 ∧
      ((A, B, hs.countP (fun s => decide (A ∈ s ∧ B ∈ s))) ∈ solveTable hs ∨
       (B, A, hs.countP (fun s => decide (A ∈ s ∧ B ∈ s))) ∈ solveTable hs) := by
  have hA' : A ∈ keysList hs := popCounter_pos_iff.mp hA
  have hB' : B ∈ keysList hs := popCounter_pos_iff.mp hB
  have hnd : (keysList hs).Nodup := List.nodup_dedup _
  have hcount : (pairsOf (keysList hs)).countP
      (fun t => decide ((t.1 = A ∧ t.2 = B) ∨ (t.1 = B ∧ t.2 = A))) = 1 :=
    countP_pairsOf hnd hA' hB' hne
  constructor
  · rw [solveTable, List.countP_map]
    rw [List.countP_congr
      (q := fun t : String × String => decide ((t.1 = A ∧ t.2 = B) ∨ (t.1 = B ∧ t.2 = A)))]
    · exact hcount
    · intro t _
      simp [Function.comp_apply]
  · have hpos : 0 < (pairsOf (keysList hs)).countP
        (fun t => decide ((t.1 = A ∧ t.2 = B) ∨ (t.1 = B ∧ t.2 = A))) := by
      rw [hcount]; exact Nat.one_pos
    rcases List.countP_pos_iff.mp hpos with ⟨p, hp, hpmatch⟩
    simp only [decide_eq_true_eq] at hpmatch
    have hmem : (p.1, p.2, cooccCount hs p.1 p.2) ∈ solveTable hs := by
      rw [solveTable]
      exact List.mem_map_of_mem _ hp
    rcases hpmatch with ⟨h1, h2⟩ | ⟨h1, h2⟩
    · left
      rw [h1, h2] at hmem
      exact hmem
    · right
      rw [h1, h2] at hmem
      have hsym : cooccCount hs B A = hs.countP (fun s => decide (A ∈ s ∧ B ∈ s)) := by
        rw [cooccCount]
        apply List.countP_congr
        intro s _
        simp only [decide_eq_true_eq]
        exact and_comm
      rw [hsym] at hmem
      exact hmem

theorem solve_unordered_pairs_witness :
    (solveTable [["AT", "GC"], ["AT"], ["GC"]]).countP
        (fun t => decide ((t.1 = "AT" ∧ t.2.1 = "GC") ∨ (t.1 = "GC" ∧ t.2.1 = "AT"))) = 1 ∧
      (("AT", "GC", ([["AT", "GC"], ["AT"], ["GC"]] : List (List String)).countP
            (fun s => decide ("AT" ∈ s ∧ "GC" ∈ s))) ∈ solveTable [["AT", "GC"], ["AT"], ["GC"]] ∨
       ("GC", "AT", ([["AT", "GC"], ["AT"], ["GC"]] : List (List String)).countP
            (fun s => decide ("AT" ∈ s ∧ "GC" ∈ s))) ∈ solveTable [["AT", "GC"], ["AT"], ["GC"]]) :=
  solve_unordered_pairs [["AT", "GC"], ["AT"], ["GC"]] "AT" "GC"
    (by decide) (by decide) (by decide)

/-- C5: the co-occurrence count `HaplotypeResolver.solve` computes for a
pair of haplotype strings never exceeds the smaller of their two population
frequencies from `HaplotypeResolver.__init__`. -/
theorem coocc_le_min_freq (hs : List (List String)) (A B : String) :
    cooccCount hs A B ≤ min (popCounter hs A) (popCounter hs B) := by
  rw [popCounter_eq_countP, popCounter_eq_countP, cooccCount]
  refine le_min ?_ ?_
  · apply List.countP_mono_left
    intro s _ h
    simp only [decide_eq_true_eq] at h ⊢
    exact h.1
  · apply List.countP_mono_left
    intro s _ h
    simp only [decide_eq_true_eq] at h ⊢
    exact h.2

/-- C8: the end-to-end scenario with three samples whose haplotype sets are
`{"AT","GC"}`, `{"AT"}` and `{"GC"}`: population frequencies `AT = 2` and
`GC = 2`, and the co-occurrence table is exactly one record
`("AT", "GC", 1)`. -/
theorem end_to_end_scenario :
    popCounter [["AT", "GC"], ["AT"], ["GC"]] "AT" = 2 ∧
      popCounter [["AT", "GC"], ["AT"], ["GC"]] "GC" = 2 ∧
      solveTable [["AT", "GC"], ["AT"], ["GC"]] = [("AT", "GC", 1)] := by
  refine ⟨by decide, by decide, by decide⟩

/-- C9: a region in which every per-sample haplotype set is empty is still
reported: the population counter is identically zero, the counter has no
keys, and `solve` emits a zero-length co-occurrence table; none of these
computations fails. -/
theorem empty_region_report (hs : List (List String)) (hempty : ∀ s ∈ hs, s = []) :
    popCounter hs = (fun _ => 0) ∧ keysList hs = [] ∧ solveTable hs = [] := by
  have hkeys : keysList hs = [] := by
    rw [keysList, List.dedup_eq_nil]
    rw [List.eq_nil_iff_forall_not_mem]
    intro a ha
    rcases List.mem_flatten.mp ha with ⟨s, hs', ha'⟩
    rw [hempty s hs'] at ha'
    cases ha'
  refine ⟨?_, hkeys, ?_⟩
  · funext x
    rw [popCounter_eq_countP, List.countP_eq_zero]
    intro s hs'
    simp [hempty s hs']
  · rw [solveTable, hkeys]
    rfl

theorem empty_region_report_witness :
    popCounter [[], []] = (fun _ => 0) ∧ keysList [[], []] = [] ∧ solveTable [[], []] = [] :=
  empty_region_report [[], []] (by decide)

/-- One pileup column yielded by the pileup accessor of a sample: the 0-based
reference coordinate `c.reference_pos` and the `(query_name, base)`
observations of the reads covering it (`r.alignment.query_name`,
`r.alignment.query_sequence[r.query_position]`). -/
structure PileupColumn where
  reference_pos : ℤ
  pileups : List (String × Char)
  deriving DecidableEq, Repr

/-- `reads[rname].append((pos, rbase))` on the `defaultdict(list)` of
`resolve`: append the observation to the entry of the named read, creating
the entry on first sight. -/
def assocAppend (rds : List (String × List (ℤ × Char))) (name : String) (ob : ℤ × Char) :
    List (String × List (ℤ × Char)) :=
  match rds with
  | [] => [(name, [ob])]
  | (n, l) :: rest =>
      if n = name then (n, l ++ [ob]) :: rest else (n, l) :: assocAppend rest name ob

/-- The marker loop of the per-sample extraction in `resolve`: for every
marker the pileup accessor is consulted anew, columns at other coordinates
are skipped (`if c.reference_pos != pos - 1: continue`), observations of
the matching column are appended per read, and the marker position is
appended to `positions`.  An accessor failure propagates: the Python code
wraps the call in no exception handler. -/
def collectObs (pileup : String → Except Unit (List PileupColumn)) (seqid : String) :
    List Marker → List (String × List (ℤ × Char)) × List ℤ →
      Except Unit (List (String × List (ℤ × Char)) × List ℤ)
  | [], acc => Except.ok acc
  | m :: ms, (reads, positions) => do
      let cols ← pileup seqid
      let reads := cols.foldl
        (fun rds col =>
          if col.reference_pos ≠ m.pos - 1 then rds
          else col.pileups.foldl (fun rds rb => assocAppend rds rb.1 (m.pos, rb.2)) rds)
        reads
      collectObs pileup seqid ms (reads, positions ++ [m.pos])

/-- The per-read array fold of `resolve`: `hap = ['-'] * nmarkers`, then
`hap[positions.index(p)] = rbase` for every `(p, rbase)` recorded for the
read.  Python `list.index` raises on an absent position, but `resolve`
only records observations at marker positions, so the index is always
found; the total `List.indexOf` (whose out-of-range `set` is a no-op)
coincides with it on all reachable inputs. -/
def readHap (nmarkers : ℕ) (positions : List ℤ) (obs : List (ℤ × Char)) : List Char :=
  obs.foldl (fun hap pb => hap.set (positions.indexOf pb.1) pb.2)
    (List.replicate nmarkers '-')

/-- Promotion of a per-read array to a haplotype string: the joined string
is kept only when it contains no unobserved sentinel
(`if "-" in hap: continue`). -/
def emitHap (nmarkers : ℕ) (positions : List ℤ) (obs : List (ℤ × Char)) : Option String :=
  if '-' ∈ readHap nmarkers positions obs then none
  else some (String.mk (readHap nmarkers positions obs))

/-- Per-sample extraction for one region of `resolve`: collect the
observations of every marker, build the array of each read, keep only the
complete reads, and take the set of distinct haplotype strings
(`haplotypes = set(haplotypes)`). -/
def sampleHaplotypes (pileup : String → Except Unit (List PileupColumn)) (seqid : String)
    (d : List Marker) : Except Unit (List String) := do
  let acc ← collectObs pileup seqid d ([], [])
  pure (((acc.1.map Prod.snd).filterMap (emitHap d.length acc.2)).dedup)

/-- The per-region sample loop of `resolve`
(`for samfile in samfiles: ... haplotype_set.append(haplotypes)`); a
failure of the accessor of any sample propagates out of the loop. -/
def regionHaplotypeSets (pileups : List (String → Except Unit (List PileupColumn)))
    (seqid : String) (d : List Marker) : Except Unit (List (List String)) :=
  pileups.mapM (fun pu => sampleHaplotypes pu seqid d)

lemma foldl_set_length (ps : List ℤ) (obs : List (ℤ × Char)) (l : List Char) :
    (obs.foldl (fun hap pb => hap.set (ps.indexOf pb.1) pb.2) l).length = l.length := by
  induction obs generalizing l with
  | nil => rfl
  | cons pb rest ih =>
      rw [List.foldl_cons, ih, List.length_set]

lemma readHap_length (n : ℕ) (ps : List ℤ) (obs : List (ℤ × Char)) :
    (readHap n ps obs).length = n := by
  rw [readHap, foldl_set_length, List.length_replicate]

lemma foldl_set_getElem? (ps : List ℤ) (obs : List (ℤ × Char)) (l : List Char) (i : ℕ)
    (hbase : ∀ pb ∈ obs, pb.2 ≠ '-') :
    ((obs.foldl (fun hap pb => hap.set (ps.indexOf pb.1) pb.2) l)[i]? = some '-' ↔
      (l[i]? = some '-' ∧ ∀ pb ∈ obs, ps.indexOf pb.1 ≠ i)) := by
  induction obs generalizing l with
  | nil => simp
  | cons pb rest ih =>
      rw [List.foldl_cons, ih _ (fun q hq => hbase q (List.mem_cons_of_mem _ hq))]
      have hset : (l.set (ps.indexOf pb.1) pb.2)[i]? = some '-' ↔
          (l[i]? = some '-' ∧ ps.indexOf pb.1 ≠ i) := by
        rw [List.getElem?_set]
        by_cases hj : ps.indexOf pb.1 = i
        · rw [if_pos hj]
          by_cases hlen : ps.indexOf pb.1 < l.length
          · rw [if_pos hlen]
            have : pb.2 ≠ '-' := hbase pb (List.mem_cons_self _ _)
            simp [this, hj]
          · rw [if_neg hlen]
            have : l[i]? = none := by
              rw [List.getElem?_eq_none]
              omega
            simp [this, hj]
        · rw [if_neg hj]
          simp [hj]
      rw [hset]
      constructor
      · rintro ⟨⟨h1, h2⟩, h3⟩
        refine ⟨h1, ?_⟩
        intro q hq
        rcases List.mem_cons.mp hq with rfl | hq'
        · exact h2
        · exact h3 q hq'
      · rintro ⟨h1, h2⟩
        exact ⟨⟨h1, h2 pb (List.mem_cons_self _ _)⟩,
          fun q hq => h2 q (List.mem_cons_of_mem _ hq)⟩

lemma sentinel_mem_readHap_iff (positions : List ℤ) (obs : List (ℤ × Char))
    (hbase : ∀ pb ∈ obs, pb.2 ≠ '-') :
    ('-' ∈ readHap positions.length positions obs ↔
      ∃ i < positions.length, ∀ pb ∈ obs, positions.indexOf pb.1 ≠ i) := by
  rw [List.mem_iff_getElem?, readHap]
  constructor
  · rintro ⟨i, hi⟩
    rw [foldl_set_getElem? _ _ _ _ hbase] at hi
    rcases hi with ⟨h1, h2⟩
    refine ⟨i, ?_, h2⟩
    rw [List.getElem?_replicate] at h1
    by_cases h : i < positions.length
    · exact h
    · rw [if_neg h] at h1
      cases h1
  · rintro ⟨i, hi, h2⟩
    refine ⟨i, ?_⟩
    rw [foldl_set_getElem? _ _ _ _ hbase]
    refine ⟨?_, h2⟩
    rw [List.getElem?_replicate, if_pos hi]

/-- C2: with distinct marker positions, observations only at marker
positions and real (non-sentinel) observed bases, the array of a read is
promoted to a haplotype string iff every marker position received at least
one observation for that read; the emitted string has exactly one
character per marker. -/
theorem hap_emitted_iff (positions : List ℤ) (obs : List (ℤ × Char))
    (hnd : positions.Nodup)
    (hmem : ∀ pb ∈ obs, pb.1 ∈ positions)
    (hbase : ∀ pb ∈ obs, pb.2 ≠ '-') :
    ((emitHap positions.length positions obs).isSome = true ↔
        ∀ p ∈ positions, ∃ b, (p, b) ∈ obs) ∧
      ∀ s, emitHap positions.length positions obs = some s →
        s.length = positions.length := by
  constructor
  · rw [emitHap]
    by_cases hs : '-' ∈ readHap positions.length positions obs
    · rw [if_pos hs]
      simp only [Option.isSome_none, Bool.false_eq_true, false_iff]
      rw [sentinel_mem_readHap_iff _ _ hbase] at hs
      rcases hs with ⟨i, hi, hnone⟩
      intro hall
      rcases hall positions[i] (List.getElem_mem hi) with ⟨b, hb⟩
      have hidx : positions.indexOf (positions[i]) = i := List.indexOf_getElem hnd i hi
      exact hnone (positions[i], b) hb hidx
    · rw [if_neg hs]
      simp only [Option.isSome_some, true_iff]
      intro p hp
      by_contra hnob
      push_neg at hnob
      apply hs
      rw [sentinel_mem_readHap_iff _ _ hbase]
      have hplt : positions.indexOf p < positions.length :=
        List.indexOf_lt_length.mpr hp
      refine ⟨positions.indexOf p, hplt, ?_⟩
      intro pb hpb hidx
      have hpb1 : pb.1 ∈ positions := hmem pb hpb
      have heq : pb.1 = p := (List.indexOf_inj hpb1 hp).mp hidx
      have : (p, pb.2) ∈ obs := by
        rw [← heq]
        exact hpb
      exact hnob pb.2 this
  · intro s hsome
    rw [emitHap] at hsome

    by_cases hs : '-' ∈ readHap positions.length positions obs
    · rw [if_pos hs] at hsome
      cases hsome
    · rw [if_neg hs] at hsome
      have := Option.some.inj hsome
      rw [← this]
      show (String.mk (readHap positions.length positions obs)).length = _
      rw [String.length]
      exact readHap_length _ _ _

theorem hap_emitted_iff_witness :
    ((emitHap ([100, 200] : List ℤ).length [100, 200] [(100, 'A'), (200, 'T')]).isSome = true ↔
        ∀ p ∈ ([100, 200] : List ℤ), ∃ b, (p, b) ∈ [((100 : ℤ), 'A'), (200, 'T')]) ∧
      ∀ s, emitHap ([100, 200] : List ℤ).length [100, 200] [(100, 'A'), (200, 'T')] = some s →
        s.length = ([100, 200] : List ℤ).length :=
  hap_emitted_iff [100, 200] [(100, 'A'), (200, 'T')]
    (by decide) (by decide) (by decide)

/-- A pileup accessor that fails on every requested region, e.g. a sample
whose alignment index does not contain the reference identifier. -/
def failingAccessor : String → Except Unit (List PileupColumn) :=
  fun _ => Except.error ()

/-- A concrete selected marker used to exercise the extraction on one
region with one marker. -/
def cMarker : Marker :=
  ⟨"ctg1", 100, "A", "G", 1⟩

lemma sampleHaplotypes_error (pu : String → Except Unit (List PileupColumn))
    (seqid : String) (m : Marker) (ms : List Marker)
    (hpu : pu seqid = Except.error ()) :
    sampleHaplotypes pu seqid (m :: ms) = Except.error () := by
  rw [sampleHaplotypes, collectObs, hpu]
  rfl

/-- C6 (amended): a failure of the pileup accessor of any sample on a region
with at least one marker is not caught: no empty haplotype set is
substituted for that sample, and the per-region extraction of `resolve`
propagates the error instead of continuing with the remaining samples. -/
theorem pileup_failure_aborts (pus : List (String → Except Unit (List PileupColumn)))
    (seqid : String) (d : List Marker) (hd : d ≠ [])
    (hfail : ∃ pu ∈ pus, pu seqid = Except.error ()) :
    regionHaplotypeSets pus seqid d = Except.error () := by
  obtain ⟨m, ms, rfl⟩ : ∃ m ms, d = m :: ms := by
    cases d with
    | nil => exact absurd rfl hd
    | cons a l => exact ⟨a, l, rfl⟩
  rw [regionHaplotypeSets]
  induction pus with
  | nil =>
      rcases hfail with ⟨pu, h, _⟩
      cases h
  | cons p rest ih =>
      rw [List.mapM_cons]
      rcases hfail with ⟨pu, hmem, hpu⟩
      rcases List.mem_cons.mp hmem with rfl | hmem'
      · rw [sampleHaplotypes_error _ _ _ _ hpu]
        rfl
      · cases hres : sampleHaplotypes p seqid (m :: ms) with
        | error e =>
            cases e
            rfl
        | ok v =>
            have htail := ih ⟨pu, hmem', hpu⟩
            show (rest.mapM (fun pu => sampleHaplotypes pu seqid (m :: ms)) >>= fun xs =>
              (pure (v :: xs) : Except Unit (List (List String)))) = Except.error ()
            rw [htail]
            rfl

theorem pileup_failure_aborts_witness :
    regionHaplotypeSets [failingAccessor] "ctg1" [cMarker] = Except.error () :=
  pileup_failure_aborts [failingAccessor] "ctg1" [cMarker]
    (List.cons_ne_nil _ _) ⟨failingAccessor, List.mem_singleton.mpr rfl, rfl⟩

/-- C6 counterexample: with a single sample whose accessor fails on the
requested region, the per-region extraction returns the propagated error
and in particular does not record an empty haplotype set for the sample as
the claim states. -/
theorem pileup_failure_counterexample :
    regionHaplotypeSets [failingAccessor] "ctg1" [cMarker] = Except.error () ∧
      regionHaplotypeSets [failingAccessor] "ctg1" [cMarker] ≠
        Except.ok [([] : List String)] := by
  constructor
  · rfl
  · intro h
    rw [show regionHaplotypeSets [failingAccessor] "ctg1" [cMarker] =
        Except.error () from rfl] at h
    cases h

/-- The lexicographic key `data.sort()` orders the marker tuples by.
Python compares the full tuples `(seqid, pos, ref, alt, c, hetratio)`
componentwise; comparison reaches the genotype counter only between
markers tied on all four leading components, an order no verified
property depends on. -/
def markerKey (m : Marker) : Lex (String × Lex (ℤ × Lex (String × String))) :=
  toLex (m.seqid, toLex (m.pos, toLex (m.ref, m.alt)))

/-- The comparison used to model `data.sort()`. -/
def markerLe (a b : Marker) : Prop :=
  markerKey a ≤ markerKey b

instance : DecidableRel markerLe :=
  fun a b => inferInstanceAs (Decidable (markerKey a ≤ markerKey b))

instance : IsTotal Marker markerLe :=
  ⟨fun a b => le_total (markerKey a) (markerKey b)⟩

instance : IsTrans Marker markerLe :=
  ⟨fun _ _ _ h₁ h₂ => le_trans h₁ h₂⟩

/-- Marker selection of `resolve`: every data row is filtered and the
surviving markers are sorted (`data.sort()`). -/
def selectMarkers (missing het : ℚ) (ngenotypes : ℕ) (rows : List MatrixRow) : List Marker :=
  List.insertionSort markerLe (rows.filterMap (rowMarker missing het ngenotypes))

/-- `itertools.groupby(data, lambda x: x[0])`: maximal runs of consecutive
markers sharing a region identifier, with the key of the run. -/
def groupRuns : List Marker → List (String × List Marker)
  | [] => []
  | m :: ms =>
      match groupRuns ms with
      | [] => [(m.seqid, [m])]
      | (k, g) :: rest =>
          if m.seqid = k then (k, m :: g) :: rest
          else (m.seqid, [m]) :: (k, g) :: rest

lemma groupRuns_all_seqid :
    ∀ {l : List Marker}, ∀ kg ∈ groupRuns l, ∀ m ∈ kg.2, m.seqid = kg.1 := by
  intro l
  induction l with
  | nil =>
      intro kg hkg
      cases hkg
  | cons m ms ih =>
      intro kg hkg m' hm'
      rw [groupRuns] at hkg
      split at hkg
      · rcases List.mem_singleton.mp hkg with rfl
        rcases List.mem_singleton.mp hm' with rfl
        rfl
      · rename_i k g rest heq
        split at hkg
        · rename_i hk
          rcases List.mem_cons.mp hkg with rfl | hkg'
          · rcases List.mem_cons.mp hm' with rfl | hm''
            · exact hk
            · exact ih (k, g) (heq ▸ List.mem_cons_self _ _) m' hm''
          · exact ih kg (heq ▸ List.mem_cons_of_mem _ hkg') m' hm'
        · rcases List.mem_cons.mp hkg with rfl | hkg'
          · rcases List.mem_singleton.mp hm' with rfl
            rfl
          · exact ih kg (heq ▸ hkg') m' hm'

lemma groupRuns_flatten : ∀ (l : List Marker), ((groupRuns l).map Prod.snd).flatten = l := by
  intro l
  induction l with
  | nil => rfl
  | cons m ms ih =>
      rw [groupRuns]
      split
      · rename_i heq
        rw [heq] at ih
        simp only [List.map_nil, List.flatten_nil] at ih
        simp [← ih]
      · rename_i k g rest heq
        rw [heq] at ih
        simp only [List.map_cons, List.flatten_cons] at ih
        split
        · simp only [List.map_cons, List.flatten_cons, List.cons_append, ih]
        · simp only [List.map_cons, List.flatten_cons, List.singleton_append, ih]

lemma groupRuns_sublist (l : List Marker) (kg : String × List Marker)
    (hkg : kg ∈ groupRuns l) : kg.2 <:+: l := by
  have h1 : kg.2 ∈ (groupRuns l).map Prod.snd := List.mem_map_of_mem _ hkg
  have h2 := List.infix_of_mem_flatten h1
  rw [groupRuns_flatten] at h2
  exact h2

lemma markerLe_pos {a b : Marker} (h : markerLe a b) (hseq : a.seqid = b.seqid) :
    a.pos ≤ b.pos := by
  rw [markerLe, markerKey, markerKey, Prod.Lex.le_iff] at h
  rcases h with h | ⟨_, h2⟩
  · rw [hseq] at h
    exact absurd h (lt_irrefl _)
  · dsimp only at h2
    rw [Prod.Lex.le_iff] at h2
    rcases h2 with h2 | ⟨h3, _⟩
    · exact le_of_lt h2
    · exact le_of_eq h3

lemma chain_pos_of {k : String} :
    ∀ {g : List Marker}, g.Chain' markerLe → (∀ m ∈ g, m.seqid = k) →
      g.Chain' (fun a b => a.pos ≤ b.pos) := by
  intro g
  induction g with
  | nil =>
      intro _ _
      exact List.chain'_nil
  | cons a g ih =>
      intro hch hseq
      cases g with
      | nil => simp
      | cons b g2 =>
          rw [List.chain'_cons] at hch ⊢
          obtain ⟨hab, hch2⟩ := hch
          refine ⟨markerLe_pos hab ?_, ih hch2 ?_⟩
          · rw [hseq a (List.mem_cons_self _ _),
              hseq b (List.mem_cons_of_mem _ (List.mem_cons_self _ _))]
          · intro m hm
            exact hseq m (List.mem_cons_of_mem _ hm)

lemma length_filterMap_isSome {α β : Type} (f : α → Option β) (l : List α) :
    (l.filterMap f).length = l.countP (fun a => (f a).isSome) := by
  induction l with
  | nil => rfl
  | cons a l ih =>
      rw [List.filterMap_cons, List.countP_cons]
      cases hfa : f a with
      | none => simp [hfa, ih]
      | some b => simp [hfa, ih]

/-- C7 (amended): every group produced from the selected marker list
shares its region identifier and has non-decreasing (not necessarily
strictly increasing) positions, and rows sharing an identical
`(region, position)` key are all retained as separate markers (the sorted
marker list has exactly one marker per passing row; duplicates do not
collapse). -/
theorem marker_groups_sorted (missing het : ℚ) (N : ℕ) (rows : List MatrixRow) :
    (∀ kg ∈ groupRuns (selectMarkers missing het N rows),
        (∀ m ∈ kg.2, m.seqid = kg.1) ∧
          kg.2.Chain' (fun a b => a.pos ≤ b.pos)) ∧
      (selectMarkers missing het N rows).length =
        rows.countP (fun r => (rowMarker missing het N r).isSome) := by
  constructor
  · intro kg hkg
    refine ⟨groupRuns_all_seqid kg hkg, ?_⟩
    have hchain : (selectMarkers missing het N rows).Chain' markerLe :=
      (List.sorted_insertionSort markerLe _).chain'
    exact chain_pos_of ( List.Chain'.infix hchain (groupRuns_sublist _ kg hkg))
      (groupRuns_all_seqid kg hkg)
  · rw [selectMarkers, List.length_insertionSort, length_filterMap_isSome]

/-- A data row whose duplicate triggers the duplicate-position behaviour:
it passes the default filter (`c0 = 1 < 2`, `hetratio = 2/3 > 1/2`). -/
def dupRow : MatrixRow :=
  ⟨"c", 100, "A", "G", ["1", "3", "3", "0"]⟩

/-- C7 counterexample: feeding the same passing row twice produces a
selected marker list whose single region group holds two markers at
position 100 — the positions are not strictly increasing and the
duplicate `(region, position)` records are not collapsed to one. -/
theorem dup_position_counterexample :
    (selectMarkers (1 / 2) (1 / 2) 4 [dupRow, dupRow]).map Marker.pos = [100, 100] ∧
      ¬ (selectMarkers (1 / 2) (1 / 2) 4 [dupRow, dupRow]).Chain'
          (fun a b => a.pos < b.pos) ∧
      (groupRuns (selectMarkers (1 / 2) (1 / 2) 4 [dupRow, dupRow])).map
          (fun kg => (kg.1, kg.2.length)) = [("c", 2)] := by
  have hc0 : (["1", "3", "3", "0"] : List String).count "0" = 1 := by decide
  have hc3 : (["1", "3", "3", "0"] : List String).count "3" = 2 := by decide
  have hrow : rowMarker (1 / 2) (1 / 2) 4 dupRow =
      some ⟨"c", 100, "A", "G", (2 : ℚ) / 3⟩ := by
    rw [rowMarker]
    dsimp only [dupRow]
    rw [hc0, hc3]
    norm_num [pyRound]
  have hle : markerLe ⟨"c", 100, "A", "G", (2 : ℚ) / 3⟩ ⟨"c", 100, "A", "G", (2 : ℚ) / 3⟩ :=
    le_refl _
  have hsel : selectMarkers (1 / 2) (1 / 2) 4 [dupRow, dupRow] =
      [⟨"c", 100, "A", "G", (2 : ℚ) / 3⟩, ⟨"c", 100, "A", "G", (2 : ℚ) / 3⟩] := by
    rw [selectMarkers]
    simp only [List.filterMap_cons, hrow, List.filterMap_nil]
    simp only [List.insertionSort, List.orderedInsert, if_pos hle]
  refine ⟨?_, ?_, ?_⟩
  · rw [hsel]
    rfl
  · rw [hsel]
    simp [List.chain'_cons]
  · rw [hsel]
    rfl

end Tgbs
